import Mathlib

/-!
Verification of the `typed_event` library (`src/typed_event/event.py`).

The `Event` class owns a single piece of state, the list `self._callbacks`.
We embed that state as a `List κ`, where `κ` is the type of callback values
(Python compares callbacks with `==`, which for function objects is identity;
we model it with `DecidableEq κ`).

* `subscribe` is `self._callbacks.append(callback)`: append at the end.
* `unsubscribe` is `self._callbacks.remove(callback)`: CPython `list.remove`
  scans from the front, deletes the first element equal to the argument, and
  raises `ValueError` when no element matches (leaving the list untouched).
  We embed it as a recursive function into `Except PyErr (List κ)`.
* `dispatch` is `for callback in self._callbacks: callback(*args, **kwargs)`.
  A CPython list iterator keeps an integer cursor into the *live* list: each
  step re-reads the current list, yields the element at the cursor if the
  cursor is in range, and stops otherwise.  We embed the loop index-based
  over the live list, with callbacks as state transformers that may mutate
  the subscriber list, mutate an external world `σ`, or raise an error `ε`.
  Since a callback may grow the list, the loop gets an explicit fuel
  parameter; every theorem below supplies enough fuel for its scenario.
  The loop also records a trace of the invocations it performed, as pairs
  `(callback, arguments)`, so that "invoked exactly once, in order, with
  these arguments" becomes an equation about the trace.
-/

namespace TypedEvent

/-- The error raised by CPython `list.remove` when the value is absent:
`ValueError("list.remove(x): x not in list")`.  This is the library's
"value not present" signal on `unsubscribe`. -/
inductive PyErr where
  | valueError
deriving DecidableEq, Repr

variable {κ α σ ε : Type}

/-- `Event.subscribe`: `self._callbacks.append(callback)`. -/
def subscribe (l : List κ) (c : κ) : List κ := l ++ [c]

/-- `Event.unsubscribe`: `self._callbacks.remove(callback)`.  CPython
`list.remove` removes the first element equal to the argument and raises
`ValueError` when none matches. -/
def unsubscribe [DecidableEq κ] : List κ → κ → Except PyErr (List κ)
  | [], _ => .error .valueError
  | x :: xs, c => if x = c then .ok xs else Except.map (fun ys => x :: ys) (unsubscribe xs c)

/-- `Event.event_listener`: `self.subscribe(callback); return callback`.
Returns the updated subscriber list together with the returned value. -/
def event_listener (l : List κ) (c : κ) : List κ × κ := (subscribe l c, c)

/-- Outcome of invoking one callback: a Python callable either returns
(possibly having mutated the world and/or the subscriber list through the
captured `Event`), or raises an error. -/
inductive CbResult (κ σ ε : Type) where
  | ok (world : σ) (subs : List κ)
  | raise (err : ε) (world : σ) (subs : List κ)

/-- Behaviour of a callback value: given the dispatch arguments, the current
world and the current subscriber list, produce a `CbResult`. -/
def Callback (κ α σ ε : Type) : Type := α → σ → List κ → CbResult κ σ ε

/-- The subscriber list after a callback invocation, whether it returned or
raised. -/
def resultSubs : CbResult κ σ ε → List κ
  | .ok _ s => s
  | .raise _ _ s => s

/-- A callback that never mutates the subscriber list (it may still mutate
the world or raise). -/
def NonMut (env : κ → Callback κ α σ ε) (c : κ) : Prop :=
  ∀ a w s, resultSubs (env c a w s) = s

/-- A callback that never mutates the subscriber list and always returns
normally. -/
def NonMutOk (env : κ → Callback κ α σ ε) (c : κ) : Prop :=
  ∀ a w s, ∃ w1, env c a w s = .ok w1 s

/-- Outcome of a `dispatch` call: normal return, a propagated callback
error, or fuel exhaustion (a non-terminating Python loop). -/
inductive DOut (κ α σ ε : Type) where
  | ok (world : σ) (subs : List κ) (trace : List (κ × α))
  | raise (err : ε) (world : σ) (subs : List κ) (trace : List (κ × α))
  | fuelOut

/-- The body of `Event.dispatch`: `for callback in self._callbacks:
callback(*args, **kwargs)`.  `i` is the CPython list-iterator cursor into
the live list `subs`; `tr` accumulates the invocations performed so far. -/
def dispatchLoop (env : κ → Callback κ α σ ε) (args : α) :
    Nat → Nat → σ → List κ → List (κ × α) → DOut κ α σ ε
  | 0, _, _, _, _ => .fuelOut
  | fuel + 1, i, w, subs, tr =>
    if h : i < subs.length then
      match env (subs.get ⟨i, h⟩) args w subs with
      | .ok w1 subs1 =>
          dispatchLoop env args fuel (i + 1) w1 subs1 (tr ++ [(subs.get ⟨i, h⟩, args)])
      | .raise e w1 subs1 => .raise e w1 subs1 (tr ++ [(subs.get ⟨i, h⟩, args)])
    else .ok w subs tr

/-- `Event.dispatch`: run the loop from cursor 0 with an empty trace. -/
def dispatch (env : κ → Callback κ α σ ε) (args : α) (fuel : Nat) (w : σ)
    (subs : List κ) : DOut κ α σ ε :=
  dispatchLoop env args fuel 0 w subs []

/-- Unfolding lemma: one loop step whose callback returns normally. -/
theorem dispatchLoop_step_ok {env : κ → Callback κ α σ ε} {args : α} {i : Nat} {w w1 : σ}
    {subs subs1 : List κ} (fuel : Nat) (tr : List (κ × α)) (h : i < subs.length)
    (henv : env (subs.get ⟨i, h⟩) args w subs = .ok w1 subs1) :
    dispatchLoop env args (fuel + 1) i w subs tr
      = dispatchLoop env args fuel (i + 1) w1 subs1 (tr ++ [(subs.get ⟨i, h⟩, args)]) := by
  rw [dispatchLoop, dif_pos h, henv]

/-- Unfolding lemma: one loop step whose callback raises. -/
theorem dispatchLoop_step_raise {env : κ → Callback κ α σ ε} {args : α} {i : Nat} {w w1 : σ}
    {subs subs1 : List κ} {e : ε} (fuel : Nat) (tr : List (κ × α)) (h : i < subs.length)
    (henv : env (subs.get ⟨i, h⟩) args w subs = .raise e w1 subs1) :
    dispatchLoop env args (fuel + 1) i w subs tr
      = .raise e w1 subs1 (tr ++ [(subs.get ⟨i, h⟩, args)]) := by
  rw [dispatchLoop, dif_pos h, henv]

/-- Unfolding lemma: the loop stops when the cursor runs off the list. -/
theorem dispatchLoop_done {env : κ → Callback κ α σ ε} {args : α} {i : Nat} {w : σ}
    {subs : List κ} (fuel : Nat) (tr : List (κ × α)) (h : ¬i < subs.length) :
    dispatchLoop env args (fuel + 1) i w subs tr = .ok w subs tr := by
  rw [dispatchLoop, dif_neg h]

/-- Running the loop across `n` consecutive positions whose callbacks return
normally without mutating the list consumes `n` fuel, advances the cursor by
`n`, leaves the list unchanged, and appends exactly those `n` invocations to
the trace, in position order, each with the dispatch arguments. -/
theorem dispatchLoop_pure_steps (env : κ → Callback κ α σ ε) (args : α) :
    ∀ (n fuel i : Nat) (w : σ) (subs : List κ) (tr : List (κ × α)),
      (∀ c ∈ (subs.drop i).take n, NonMutOk env c) →
      i + n ≤ subs.length → n ≤ fuel →
      ∃ w1, dispatchLoop env args fuel i w subs tr
          = dispatchLoop env args (fuel - n) (i + n) w1 subs
              (tr ++ ((subs.drop i).take n).map (fun c => (c, args))) := by
  intro n
  induction n with
  | zero => intro fuel i w subs tr _ _ _; exact ⟨w, by simp⟩
  | succ n ih =>
    intro fuel i w subs tr hpure hlen hfuel
    have hi : i < subs.length := by omega
    match fuel, hfuel with
    | fuel + 1, _ =>
      have hdrop : subs.drop i = subs.get ⟨i, hi⟩ :: subs.drop (i + 1) :=
        List.drop_eq_getElem_cons hi
      have hmem : subs.get ⟨i, hi⟩ ∈ (subs.drop i).take (n + 1) := by
        rw [hdrop]; exact List.mem_cons_self _ _
      obtain ⟨w1, hw1⟩ := hpure _ hmem args w subs
      obtain ⟨w2, hw2⟩ := ih fuel (i + 1) w1 subs (tr ++ [(subs.get ⟨i, hi⟩, args)])
        (by
          intro c hc
          apply hpure
          rw [hdrop]
          exact List.mem_cons_of_mem _ hc)
        (by omega) (by omega)
      refine ⟨w2, ?_⟩
      have harr : i + 1 + n = i + (n + 1) := by omega
      have hfu : fuel - n = fuel + 1 - (n + 1) := by omega
      have htr : tr ++ [(subs.get ⟨i, hi⟩, args)]
            ++ List.map (fun c => (c, args)) (List.take n (List.drop (i + 1) subs))
          = tr ++ List.map (fun c => (c, args)) (List.take (n + 1) (List.drop i subs)) := by
        rw [hdrop]
        simp
        have hm2 : List.drop i (List.map (fun c => (c, args)) subs)
            = (subs[i], args) :: List.drop (i + 1) (List.map (fun c => (c, args)) subs) := by
          rw [List.drop_eq_getElem_cons (by simpa using hi), List.getElem_map]
        rw [hm2, List.take_succ_cons]
      rw [dispatchLoop_step_ok fuel tr hi hw1, hw2, harr, hfu, htr]

/-- Running the loop from cursor `i` when every callback at or after `i`
returns normally without mutating the list terminates normally, leaves the
list unchanged, and appends exactly the invocations of positions `i` onward,
in order, each with the dispatch arguments. -/
theorem dispatchLoop_pure_run (env : κ → Callback κ α σ ε) (args : α)
    (i fuel : Nat) (w : σ) (subs : List κ) (tr : List (κ × α))
    (hpure : ∀ c ∈ subs.drop i, NonMutOk env c)
    (hfuel : subs.length - i < fuel) :
    ∃ w1, dispatchLoop env args fuel i w subs tr
        = .ok w1 subs (tr ++ (subs.drop i).map (fun c => (c, args))) := by
  by_cases hi : i ≤ subs.length
  · obtain ⟨w1, hw1⟩ := dispatchLoop_pure_steps env args (subs.length - i) fuel i w subs tr
      (by
        intro c hc
        exact hpure c (List.mem_of_mem_take hc))
      (by omega) (by omega)
    refine ⟨w1, ?_⟩
    rw [hw1]
    have htake : (subs.drop i).take (subs.length - i) = subs.drop i := by
      have hlen : (subs.drop i).length = subs.length - i := List.length_drop i subs
      rw [← hlen]
      exact List.take_length _
    rw [htake]
    have hcur : i + (subs.length - i) = subs.length := by omega
    rw [hcur]
    have hg : 0 < fuel - (subs.length - i) := by omega
    match fuel - (subs.length - i), hg with
    | g + 1, _ =>
      exact dispatchLoop_done g _ (by omega)
  · refine ⟨w, ?_⟩
    have hdrop : subs.drop i = [] := List.drop_eq_nil_of_le (by omega)
    match fuel, hfuel with
    | fuel + 1, _ =>
      rw [dispatchLoop_done fuel tr (by omega), hdrop]
      simp

/-- `unsubscribe` on a list containing `c` removes exactly the first
occurrence of `c` and succeeds. -/
theorem unsubscribe_append_first [DecidableEq κ] (c : κ) :
    ∀ (p q : List κ), c ∉ p → unsubscribe (p ++ c :: q) c = .ok (p ++ q) := by
  intro p
  induction p with
  | nil => intro q _; simp [unsubscribe]
  | cons x xs ih =>
    intro q hc
    have hx : ¬x = c := fun h => hc (by simp [h])
    have hxs : c ∉ xs := fun h => hc (List.mem_cons_of_mem _ h)
    have hstep : unsubscribe ((x :: xs) ++ c :: q) c
        = Except.map (fun ys => x :: ys) (unsubscribe (xs ++ c :: q) c) := by
      rw [List.cons_append, unsubscribe, if_neg hx]
    rw [hstep, ih q hxs]
    rfl

/-- `unsubscribe` on a list not containing `c` fails with `ValueError`. -/
theorem unsubscribe_not_mem [DecidableEq κ] (c : κ) :
    ∀ l : List κ, c ∉ l → unsubscribe l c = .error .valueError := by
  intro l
  induction l with
  | nil => intro _; rfl
  | cons x xs ih =>
    intro hc
    have hx : ¬x = c := fun h => hc (by simp [h])
    have hxs : c ∉ xs := fun h => hc (List.mem_cons_of_mem _ h)
    simp only [unsubscribe, if_neg hx, ih hxs, Except.map]

/-- Inversion: a successful `unsubscribe` splits the list around the first
occurrence of `c` and returns the list with exactly that occurrence deleted,
all other entries kept in order. -/
theorem unsubscribe_eq_ok [DecidableEq κ] (c : κ) :
    ∀ (l l1 : List κ), unsubscribe l c = .ok l1 →
      ∃ p q, l = p ++ c :: q ∧ c ∉ p ∧ l1 = p ++ q := by
  intro l
  induction l with
  | nil => intro l1 h; exact absurd h (by simp [unsubscribe])
  | cons x xs ih =>
    intro l1 h
    by_cases hx : x = c
    · subst hx
      rw [unsubscribe, if_pos rfl] at h
      cases h
      exact ⟨[], xs, by simp, by simp, rfl⟩
    · simp only [unsubscribe, if_neg hx] at h
      match hxs : unsubscribe xs c with
      | .ok ys =>
        rw [hxs] at h
        simp only [Except.map, Except.ok.injEq] at h
        obtain ⟨p, q, hsplit, hnp, hys⟩ := ih ys hxs
        refine ⟨x :: p, q, by simp [hsplit], ?_, by simp [← h, hys]⟩
        intro hmem
        rcases List.mem_cons.mp hmem with h1 | h2
        · exact hx h1.symm
        · exact hnp h2
      | .error e =>
        rw [hxs] at h
        simp [Except.map] at h

/-- Concrete environment for witnesses: every callback returns normally and
mutates nothing. -/
def envPure : Nat → Callback Nat Nat Nat Nat := fun _ => fun _ w s => .ok w s

/-- Concrete environment: every callback raises error 7 without mutating the
subscriber list. -/
def envRaise : Nat → Callback Nat Nat Nat Nat := fun _ => fun _ w s => .raise 7 w s

/-- Concrete environment: callback 1 raises error 7; every other callback
returns normally and mutates nothing. -/
def envRaiseAt1 : Nat → Callback Nat Nat Nat Nat :=
  fun c => fun _ w s => if c = 1 then .raise 7 w s else .ok w s

/-- Concrete environment: callback 1 calls `event.unsubscribe(2)` on the live
event during dispatch (raising if 2 is absent, as `unsubscribe` would); every
other callback returns normally and mutates nothing. -/
def envRemover : Nat → Callback Nat Nat Nat Nat :=
  fun c => fun _ w s =>
    if c = 1 then
      match unsubscribe s 2 with
      | .ok s1 => .ok w s1
      | .error _ => .raise 0 w s
    else .ok w s

/-- C1 counterexample: a callback that raises but never mutates the
subscriber list satisfies the claim's hypothesis ("none of which mutates the
subscriber sequence when invoked"), yet `dispatch` on the one-element list
`[0]` propagates the error instead of returning normally. -/
theorem dispatch_nonmut_can_raise_cex :
    NonMut envRaise 0 ∧ dispatch envRaise 3 2 0 [0] = .raise 7 0 [0] [(0, 3)] :=
  ⟨fun _ _ _ => rfl, rfl⟩

/-- C1 (amended): for every subscriber list whose callbacks, when invoked,
neither mutate the subscriber list nor raise, `dispatch` invokes each
subscriber exactly once, in subscription order, passing each the dispatch
arguments, and returns normally with the subscriber list unchanged. -/
theorem dispatch_all_nonmut_ok_in_order (env : κ → Callback κ α σ ε) (args : α)
    (w : σ) (subs : List κ) (fuel : Nat)
    (hpure : ∀ c ∈ subs, NonMutOk env c) (hfuel : subs.length < fuel) :
    ∃ w1, dispatch env args fuel w subs
        = .ok w1 subs (subs.map (fun c => (c, args))) := by
  obtain ⟨w1, h⟩ := dispatchLoop_pure_run env args 0 fuel w subs []
    (by simpa using hpure) (by omega)
  exact ⟨w1, by simpa [dispatch] using h⟩

/-- C1 witness: two pure subscribers, both invoked once, in order, with the
dispatch argument. -/
theorem dispatch_all_nonmut_ok_in_order_witness :
    ∃ w1, dispatch envPure 9 3 0 [5, 6] = .ok w1 [5, 6] [(5, 9), (6, 9)] := by
  obtain ⟨w1, h⟩ := dispatch_all_nonmut_ok_in_order envPure 9 0 [5, 6] 3
    (fun c _ a w s => ⟨w, rfl⟩) (by decide)
  exact ⟨w1, by simpa using h⟩

/-- C2: if the subscribers before position `k = p.length + 1` (1-indexed)
neither mutate the list nor raise, and the subscriber at position `k` raises
`eid`, then `dispatch` propagates `eid` unmodified to its caller, the first
`k-1` subscribers each ran exactly once with the dispatch arguments, in
order, the failing subscriber was invoked once, and no later subscriber was
invoked (the trace is exactly `p ++ [m]`). -/
theorem dispatch_error_propagation (env : κ → Callback κ α σ ε) (args : α)
    (p : List κ) (m : κ) (q : List κ) (w : σ) (eid : ε) (fuel : Nat)
    (hp : ∀ c ∈ p, NonMutOk env c)
    (hm : ∀ w1, ∃ w2 s2, env m args w1 (p ++ m :: q) = .raise eid w2 s2)
    (hfuel : p.length < fuel) :
    ∃ w2 s2, dispatch env args fuel w (p ++ m :: q)
        = .raise eid w2 s2 ((p ++ [m]).map (fun c => (c, args))) := by
  obtain ⟨w1, hw1⟩ := dispatchLoop_pure_steps env args p.length fuel 0 w (p ++ m :: q) []
    (by
      intro c hc
      apply hp
      rw [List.drop_zero, List.take_left p (m :: q)] at hc
      exact hc)
    (by simp) (by omega)
  have hlt : p.length < (p ++ m :: q).length := by simp
  obtain ⟨w2, s2, hraise⟩ := hm w1
  have hget : (p ++ m :: q).get ⟨p.length, hlt⟩ = m := by
    rw [List.get_eq_getElem, List.getElem_append_right (Nat.le_refl _)]
    simp
  have hra : env ((p ++ m :: q).get ⟨p.length, hlt⟩) args w1 (p ++ m :: q)
      = .raise eid w2 s2 := by rw [hget]; exact hraise
  refine ⟨w2, s2, ?_⟩
  obtain ⟨g, hgeq⟩ : ∃ g, fuel - p.length = g + 1 := ⟨fuel - p.length - 1, by omega⟩
  rw [dispatch, hw1, hgeq, Nat.zero_add, dispatchLoop_step_raise g _ hlt hra]
  simp [List.take_left]
  rw [List.getElem_append_right (Nat.le_refl _)]
  simp

/-- C2 witness: subscribers `[0, 1, 2]` where 1 raises error 7: subscriber 0
ran once with the argument, the error propagates, subscriber 2 never runs. -/
theorem dispatch_error_propagation_witness :
    ∃ w2 s2, dispatch envRaiseAt1 9 3 0 [0, 1, 2] = .raise 7 w2 s2 [(0, 9), (1, 9)] := by
  obtain ⟨w2, s2, h⟩ := dispatch_error_propagation envRaiseAt1 9 [0] 1 [2] 0 7 3
    (by
      intro c hc
      simp at hc
      subst hc
      exact fun a w s => ⟨w, rfl⟩)
    (fun w1 => ⟨w1, [0, 1, 2], rfl⟩)
    (by decide)
  exact ⟨w2, s2, by simpa using h⟩

/-- C3: `unsubscribe` on a list containing `c` removes exactly the first
occurrence of `c` and no other entry, preserving the relative order of the
remaining entries (the result is literally the prefix before the first
occurrence followed by the suffix after it); in particular, removing one of
two subscriptions of `c` leaves `[c]`, and a subsequent dispatch of `[c]`
invokes `c` exactly once. -/
theorem unsubscribe_removes_first_occurrence [DecidableEq κ]
    (c : κ) (p q : List κ) (hc : c ∉ p)
    (env : κ → Callback κ α σ ε) (args : α) (w : σ) (hcb : NonMutOk env c) :
    unsubscribe (p ++ c :: q) c = .ok (p ++ q)
      ∧ unsubscribe [c, c] c = .ok [c]
      ∧ ∃ w1, dispatch env args 2 w [c] = .ok w1 [c] [(c, args)] := by
  refine ⟨unsubscribe_append_first c p q hc, ?_, ?_⟩
  · rw [unsubscribe, if_pos rfl]
  · obtain ⟨w1, h⟩ := dispatchLoop_pure_run env args 0 2 w [c] []
      (by
        intro d hd
        simp at hd
        subst hd
        exact hcb)
      (by simp)
    exact ⟨w1, by simpa [dispatch] using h⟩

/-- C3 witness: remove 0 from `[1, 0, 2]`, remove one of two entries of 0
from `[0, 0]`, then dispatch `[0]` and see exactly one invocation. -/
theorem unsubscribe_removes_first_occurrence_witness :
    unsubscribe [1, 0, 2] 0 = .ok [1, 2]
      ∧ unsubscribe [0, 0] 0 = .ok [0]
      ∧ ∃ w1, dispatch envPure 9 2 0 [0] = .ok w1 [0] [(0, 9)] := by
  have h := unsubscribe_removes_first_occurrence 0 [1] [2] (by decide)
    envPure 9 0 (fun a w s => ⟨w, rfl⟩)
  exact ⟨by simpa using h.1, h.2.1, h.2.2⟩

/-- C4: `unsubscribe` on a list containing no occurrence of `c` fails with
the `ValueError` "value not present" signal rather than silently doing
nothing; since the error is raised before any removal, the subscriber list
is left unchanged (the operation produces no new list at all). -/
theorem unsubscribe_absent_value_error [DecidableEq κ] (l : List κ) (c : κ)
    (hc : c ∉ l) :
    unsubscribe l c = .error .valueError :=
  unsubscribe_not_mem c l hc

/-- C4 witness: removing 0 from `[1, 2]` raises `ValueError`. -/
theorem unsubscribe_absent_value_error_witness :
    unsubscribe [1, 2] 0 = .error .valueError :=
  unsubscribe_absent_value_error [1, 2] 0 (by decide)

/-- C5: `subscribe` always succeeds (it is a total function) and its sole
effect is appending `c` at the end: the length grows by exactly one, the
existing entries and their order are untouched, the last entry is `c`, and
no deduplication happens (the number of occurrences of `c` always grows by
one, even when `c` was already present). -/
theorem subscribe_appends [DecidableEq κ] (l : List κ) (c : κ) :
    (subscribe l c).length = l.length + 1
      ∧ (subscribe l c).take l.length = l
      ∧ (subscribe l c).getLast? = some c
      ∧ (subscribe l c).count c = l.count c + 1 := by
  refine ⟨by simp [subscribe], List.take_left l [c], ?_, by simp [subscribe]⟩
  simp [subscribe, List.getLast?_concat]

/-- C6: `event_listener` returns exactly the callback value it was given,
and its effect on the subscriber list is exactly that of `subscribe`. -/
theorem event_listener_equiv_subscribe (l : List κ) (c : κ) :
    (event_listener l c).2 = c ∧ (event_listener l c).1 = subscribe l c :=
  ⟨rfl, rfl⟩

/-- C9: `dispatch` on an event with no subscribers returns normally, invokes
nothing (empty trace), and leaves both the subscriber list and the world
unchanged. -/
theorem dispatch_empty_noop (env : κ → Callback κ α σ ε) (args : α)
    (fuel : Nat) (w : σ) :
    dispatch env args (fuel + 1) w [] = .ok w [] [] :=
  dispatchLoop_done fuel [] (by simp)

/-- C10: for a list not containing `c`, `subscribe c` then `unsubscribe c`
restores the list exactly; when `c` is already present the round trip can
change the list, because `subscribe` appends at the end while `unsubscribe`
removes the first occurrence (witnessed by `[0, 1]`). -/
theorem subscribe_unsubscribe_roundtrip [DecidableEq κ] (l : List κ) (c : κ)
    (hc : c ∉ l) :
    unsubscribe (subscribe l c) c = .ok l
      ∧ unsubscribe (subscribe ([0, 1] : List Nat) 0) 0 = .ok [1, 0]
      ∧ [1, 0] ≠ ([0, 1] : List Nat) := by
  refine ⟨?_, rfl, by decide⟩
  have h := unsubscribe_append_first c l [] hc
  simpa [subscribe] using h

/-- C10 witness: the round trip on `[1, 2]` with the absent callback 0
restores `[1, 2]`. -/
theorem subscribe_unsubscribe_roundtrip_witness :
    unsubscribe (subscribe [1, 2] 0) 0 = .ok [1, 2]
      ∧ unsubscribe (subscribe ([0, 1] : List Nat) 0) 0 = .ok [1, 0]
      ∧ [1, 0] ≠ ([0, 1] : List Nat) :=
  subscribe_unsubscribe_roundtrip [1, 2] 0 (by decide)

/-- C7: `dispatch` iterates the live subscriber list, not a snapshot.  For
any subscriber list `p ++ m :: (q ++ v :: r)` in which the pure subscribers
`p`, `q`, `r` leave the list alone and the subscriber `m`, when invoked,
removes the later subscriber `v` from the live list, the positions visited
after `m` reflect the mutated list: dispatch returns normally with final
list `p ++ m :: (q ++ r)`, the trace is exactly the invocations of
`p ++ m :: (q ++ r)` in order, and `v` is never invoked in that dispatch
call. -/
theorem dispatch_live_list_iteration (env : κ → Callback κ α σ ε) (args : α) (w : σ)
    (p q r : List κ) (m v : κ) (fuel : Nat)
    (hp : ∀ c ∈ p, NonMutOk env c)
    (hq : ∀ c ∈ q, NonMutOk env c)
    (hr : ∀ c ∈ r, NonMutOk env c)
    (hm : ∀ w1, ∃ w2, env m args w1 (p ++ m :: (q ++ v :: r)) = .ok w2 (p ++ m :: (q ++ r)))
    (hfuel : p.length + q.length + r.length + 1 < fuel)
    (hvp : v ∉ p) (hvm : v ≠ m) (hvq : v ∉ q) (hvr : v ∉ r) :
    (∃ w1, dispatch env args fuel w (p ++ m :: (q ++ v :: r))
        = .ok w1 (p ++ m :: (q ++ r)) ((p ++ m :: (q ++ r)).map (fun c => (c, args))))
      ∧ ∀ a, (v, a) ∉ (p ++ m :: (q ++ r)).map (fun c => (c, args)) := by
  constructor
  · obtain ⟨w1, hw1⟩ := dispatchLoop_pure_steps env args p.length fuel 0 w
      (p ++ m :: (q ++ v :: r)) []
      (by
        intro c hc
        apply hp
        rw [List.drop_zero, List.take_left p (m :: (q ++ v :: r))] at hc
        exact hc)
      (by simp) (by omega)
    have hlt : p.length < (p ++ m :: (q ++ v :: r)).length := by simp
    obtain ⟨w2, hw2⟩ := hm w1
    have hget : (p ++ m :: (q ++ v :: r)).get ⟨p.length, hlt⟩ = m := by
      rw [List.get_eq_getElem, List.getElem_append_right (Nat.le_refl _)]
      simp
    have hra : env ((p ++ m :: (q ++ v :: r)).get ⟨p.length, hlt⟩) args w1
        (p ++ m :: (q ++ v :: r)) = .ok w2 (p ++ m :: (q ++ r)) := by
      rw [hget]; exact hw2
    obtain ⟨g, hgeq⟩ : ∃ g, fuel - p.length = g + 1 := ⟨fuel - p.length - 1, by omega⟩
    have hdl : (p ++ m :: (q ++ r)).drop (p.length + 1) = q ++ r := by
      have hsplit : p ++ m :: (q ++ r) = (p ++ [m]) ++ (q ++ r) := by simp
      rw [hsplit]
      have hlen2 : p.length + 1 = (p ++ [m]).length := by simp
      rw [hlen2]
      exact List.drop_left _ _
    obtain ⟨w3, hw3⟩ := dispatchLoop_pure_run env args (p.length + 1) g w2
      (p ++ m :: (q ++ r))
      ([] ++ (((p ++ m :: (q ++ v :: r)).drop 0).take p.length).map (fun c => (c, args))
        ++ [((p ++ m :: (q ++ v :: r)).get ⟨p.length, hlt⟩, args)])
      (by
        rw [hdl]
        intro c hc
        rcases List.mem_append.mp hc with h1 | h2
        · exact hq c h1
        · exact hr c h2)
      (by simp; omega)
    refine ⟨w3, ?_⟩
    rw [dispatch, hw1, hgeq, Nat.zero_add, dispatchLoop_step_ok g _ hlt hra, hw3, hdl]
    simp [List.take_left, hget]
    rw [List.getElem_append_right (Nat.le_refl _)]
    simp
  · intro a hmem
    rw [List.mem_map] at hmem
    obtain ⟨b, hb, heq⟩ := hmem
    simp only [Prod.mk.injEq] at heq
    obtain ⟨hbv, _⟩ := heq
    subst hbv
    simp at hb
    tauto

/-- C7 witness: subscribers `[0, 1, 2, 3]` where 1 unsubscribes 2 during
dispatch; 0, 1 and 3 each run once, 2 never runs. -/
theorem dispatch_live_list_iteration_witness :
    (∃ w1, dispatch envRemover 9 5 0 [0, 1, 2, 3]
        = .ok w1 [0, 1, 3] [(0, 9), (1, 9), (3, 9)])
      ∧ (2, 9) ∉ [(0, 9), (1, 9), (3, 9)] := by
  obtain ⟨h1, h2⟩ := dispatch_live_list_iteration envRemover 9 0 [0] [] [3] 1 2 5
    (by
      intro c hc
      simp at hc
      subst hc
      exact fun a w s => ⟨w, rfl⟩)
    (by intro c hc; simp at hc)
    (by
      intro c hc
      simp at hc
      subst hc
      exact fun a w s => ⟨w, rfl⟩)
    (fun w1 => ⟨w1, rfl⟩)
    (by decide) (by decide) (by decide) (by decide) (by decide)
  constructor
  · obtain ⟨w1, hd⟩ := h1
    exact ⟨w1, by simpa using hd⟩
  · have h3 := h2 9
    revert h3
    simp

/-- C8: the subscriber list never reorders.  `subscribe` only appends one
entry at the end; a successful `unsubscribe` deletes exactly one occurrence
(the first) and keeps every other entry in its original relative order, so
the result is a sublist of the original; and `dispatch` over non-mutating
subscribers performs no mutation at all: the subscriber list after dispatch
is the one before it. -/
theorem event_ops_preserve_order [DecidableEq κ] (l l1 : List κ) (c : κ)
    (env : κ → Callback κ α σ ε) (args : α) (w : σ) (subs : List κ) (fuel : Nat) :
    subscribe l c = l ++ [c]
      ∧ (unsubscribe l c = .ok l1 →
          (∃ p q, l = p ++ c :: q ∧ c ∉ p ∧ l1 = p ++ q) ∧ l1.Sublist l)
      ∧ ((∀ d ∈ subs, NonMutOk env d) → subs.length < fuel →
          ∃ w1 tr, dispatch env args fuel w subs = .ok w1 subs tr) := by
  refine ⟨rfl, ?_, ?_⟩
  · intro h
    obtain ⟨p, q, hsplit, hnp, hl1⟩ := unsubscribe_eq_ok c l l1 h
    refine ⟨⟨p, q, hsplit, hnp, hl1⟩, ?_⟩
    rw [hsplit, hl1]
    exact List.Sublist.append_left (List.sublist_cons_self c q) p
  · intro hpure hfuel
    obtain ⟨w1, h⟩ := dispatchLoop_pure_run env args 0 fuel w subs []
      (by simpa using hpure) (by omega)
    exact ⟨w1, subs.map (fun d => (d, args)), by simpa [dispatch] using h⟩

/-- C8 witness: subscribing 0 to `[0, 1]` appends; unsubscribing 0 from
`[0, 1]` yields the order-preserving sublist `[1]`; dispatching `[5]` with a
pure subscriber leaves the list `[5]` unchanged. -/
theorem event_ops_preserve_order_witness :
    subscribe [0, 1] 0 = [0, 1] ++ [0]
      ∧ ((∃ p q, ([0, 1] : List Nat) = p ++ 0 :: q ∧ 0 ∉ p ∧ [1] = p ++ q)
          ∧ ([1] : List Nat).Sublist [0, 1])
      ∧ ∃ w1 tr, dispatch envPure 9 2 0 [5] = .ok w1 [5] tr := by
  obtain ⟨h1, h2, h3⟩ := event_ops_preserve_order [0, 1] [1] 0 envPure 9 0 [5] 2
  exact ⟨h1, h2 rfl, h3 (fun d _ a w s => ⟨w, rfl⟩) (by decide)⟩
